import Mathlib

set_option maxHeartbeats 1000000

/-!
Shallow embedding of the thumbnail fan-out pipeline of `main.go`
(package `main` of the `nzai/resize` repository).

The pure string-level parts (`sizePattern`, `thumbnailKey`, the eligibility
conditions of `S3Event`, `readConfig`) are translated function by function
from the Go source.  The effectful parts (`S3Event`, `onImageCreated`,
`createThumbnail`, `saveThumbnail`) are embedded as trace-producing
functions over an oracle environment (`Env`) that supplies the results of
the external calls (S3 GetObject + jpeg.Decode, resize.Thumbnail,
jpeg.Encode, S3 PutObject).  The trace linearizes the goroutine fan-out in
spawn order; all properties proved about traces are counting / membership /
segment-decomposition properties, which are insensitive to the interleaving
of the concurrent workers.
-/

namespace Resize

/-- Model of Go `image.Point` as used for configured size targets.  In the
source every size reaching `thumbnailKey` comes from `readConfig`, which
parses the two capture groups of the regexp `(\d+)x(\d+)` with
`strconv.Atoi`, so both coordinates are non-negative; they are therefore
modelled as `Nat`. -/
structure SizeTarget where
  x : Nat
  y : Nat
deriving DecidableEq, Repr

/-- Maximal leading run of decimal digits of a character list, together with
the remainder.  Used to model matching of the regexp `(\d+)x(\d+)`. -/
def takeDigits : List Char → List Char × List Char
  | [] => ([], [])
  | c :: cs =>
    if c.isDigit then
      let p := takeDigits cs
      (c :: p.1, p.2)
    else ([], c :: cs)

/-- Model of `sizePattern.Match` for `sizePattern = regexp.MustCompile("(\\d+)x(\\d+)")`
(main.go line 29).  The regexp matches somewhere in the string iff the
string contains a contiguous substring consisting of a decimal digit, the
literal character `x`, and a decimal digit (the last digit of the first
group, the `x`, and the first digit of the second group); `\d` in Go's
regexp syntax is exactly `[0-9]`, i.e. `Char.isDigit`. -/
def containsDigitXDigit : List Char → Bool
  | a :: b :: c :: r =>
    (a.isDigit && b == 'x' && c.isDigit) || containsDigitXDigit (b :: c :: r)
  | _ => false

/-- Boolean `sizePattern.Match([]byte(key))` on a string. -/
def sizePatternMatch (s : String) : Bool :=
  containsDigitXDigit s.data

/-- Core of Go `strings.Replace(s, old, new, -1)` for a non-empty `old`
(written `o :: os`): scan left to right; whenever `old` is a prefix of the
remaining input emit `new` and skip over the matched characters (the `Nat`
argument counts characters still to be skipped), otherwise copy one
character.  This is exactly the non-overlapping left-to-right replacement
the Go standard library performs. -/
def replCore (o : Char) (os new : List Char) : Nat → List Char → List Char
  | _, [] => []
  | k + 1, _ :: cs => replCore o os new k cs
  | 0, c :: cs =>
    if (o :: os).isPrefixOf (c :: cs) then new ++ replCore o os new os.length cs
    else c :: replCore o os new 0 cs

/-- Number of (non-overlapping, left-to-right) occurrences of `o :: os`
that `replCore` replaces; same scanning structure as `replCore`. -/
def countCore (o : Char) (os : List Char) : Nat → List Char → Nat
  | _, [] => 0
  | k + 1, _ :: cs => countCore o os k cs
  | 0, c :: cs =>
    if (o :: os).isPrefixOf (c :: cs) then countCore o os os.length cs + 1
    else countCore o os 0 cs

/-- Go `strings.Replace(s, "", new, -1)` inserts `new` before every
character and after the last one; `interleave new s` is the part after the
leading copy of `new`. -/
def interleave (new : List Char) : List Char → List Char
  | [] => []
  | c :: cs => c :: (new ++ interleave new cs)

/-- Model of Go `strings.Replace(s, old, new, -1)` (replace all
occurrences).  The Go implementation's fast paths (`old == new`, zero
occurrences) return `s` unchanged, which coincides with what the scan
below produces in those situations, so they need no separate branch. -/
def goReplaceAll (s old new : String) : String :=
  match old.data with
  | [] => ⟨new.data ++ interleave new.data s.data⟩
  | o :: os => ⟨replCore o os new.data 0 s.data⟩

/-- Helper for `filepathExt`: the input is the reversed path.  Walking from
the last character towards the front, stop with `[]` at a path separator,
stop with `['.']` at the first dot, and otherwise extend the extension
found deeper (if any) by the current character.  This is Go
`path/filepath.Ext`'s backwards scan, producing the reversed extension. -/
def extFromRev : List Char → List Char
  | [] => []
  | c :: cs =>
    if c = '/' then []
    else if c = '.' then [c]
    else
      match extFromRev cs with
      | [] => []
      | r => c :: r

/-- Model of Go `filepath.Ext(path)` (on a Unix path separator): the suffix
of `path` beginning at the final dot in the final slash-separated element,
or the empty string if that element has no dot. -/
def filepathExt (p : String) : String :=
  ⟨(extFromRev p.data.reverse).reverse⟩

/-- Decimal digits of a natural number, most significant first, with an
explicit structural fuel (any fuel `> n` computes the value); models the
output of Go `fmt.Sprintf("%d", n)` for a non-negative value. -/
def natDigitsAux : Nat → Nat → List Char
  | 0, _ => []
  | fuel + 1, n =>
    if n < 10 then [Nat.digitChar n]
    else natDigitsAux fuel (n / 10) ++ [Nat.digitChar (n % 10)]

/-- Decimal representation of `n`, e.g. `natDigits 200 = ['2','0','0']`. -/
def natDigits (n : Nat) : List Char :=
  natDigitsAux (n + 1) n

/-- Value of a list of decimal digit characters, most significant first. -/
def digitsToNat (l : List Char) : Nat :=
  l.foldl (fun a c => 10 * a + (c.toNat - 48)) 0

/-- The replacement string `fmt.Sprintf("_%dx%d%s", size.X, size.Y, ext)`
of `thumbnailKey` (main.go line 261). -/
def sizeSuffix (w h : Nat) (ext : String) : String :=
  ⟨'_' :: (natDigits w ++ 'x' :: (natDigits h ++ ext.data))⟩

/-- Model of `Imaging.thumbnailKey` (main.go lines 259-262):

    ext := filepath.Ext(key)
    return strings.Replace(key, ext, fmt.Sprintf("_%dx%d%s", size.X, size.Y, ext), -1)
-/
def thumbnailKey (key : String) (size : SizeTarget) : String :=
  goReplaceAll key (filepathExt key) (sizeSuffix size.x size.y (filepathExt key))

/-! Helper lemmas about the string machinery. -/

/-- Strong induction on the length of a list. -/
theorem length_strong_induction {α : Type} {P : List α → Prop}
    (step : ∀ l : List α, (∀ m : List α, m.length < l.length → P m) → P l) :
    ∀ l : List α, P l := by
  have key : ∀ (n : Nat) (l : List α), l.length ≤ n → P l := by
    intro n
    induction n with
    | zero =>
      intro l hl
      exact step l (fun m hm => absurd (Nat.lt_of_lt_of_le hm hl) (Nat.not_lt_zero _))
    | succ n ih =>
      intro l hl
      exact step l (fun m hm => ih m (by omega))
  exact fun l => key l.length l (Nat.le_refl _)

/-- Bridge between the boolean prefix test and the prefix order on lists. -/
theorem isPrefixOf_eq {α : Type} [DecidableEq α] {l1 l2 : List α} :
    l1.isPrefixOf l2 = true ↔ l1 <+: l2 :=
  List.isPrefixOf_iff_prefix

/-- Reversal turns the prefix order into the suffix order. -/
theorem reverse_isPre {α : Type} {l1 l2 : List α} :
    l1.reverse <+: l2.reverse ↔ l1 <:+ l2 :=
  List.reverse_prefix

/-- Skipping `k` characters in `replCore` is dropping them from the input. -/
theorem replCore_skip (o : Char) (os new : List Char) :
    ∀ (k : Nat) (l : List Char), replCore o os new k l = replCore o os new 0 (l.drop k) := by
  intro k
  induction k with
  | zero =>
    intro l
    rw [List.drop_zero]
  | succ k ih =>
    intro l
    cases l with
    | nil => rfl
    | cons c cs => rw [List.drop_succ_cons, replCore, ih]

/-- Skipping `k` characters in `countCore` is dropping them from the input. -/
theorem countCore_skip (o : Char) (os : List Char) :
    ∀ (k : Nat) (l : List Char), countCore o os k l = countCore o os 0 (l.drop k) := by
  intro k
  induction k with
  | zero =>
    intro l
    rw [List.drop_zero]
  | succ k ih =>
    intro l
    cases l with
    | nil => rfl
    | cons c cs => rw [List.drop_succ_cons, countCore, ih]

/-- One-step unfolding of the replacement scan in terms of `List.drop`. -/
theorem replCore_cons (o : Char) (os new : List Char) (c : Char) (cs : List Char) :
    replCore o os new 0 (c :: cs) =
      if (o :: os).isPrefixOf (c :: cs) then new ++ replCore o os new 0 (cs.drop os.length)
      else c :: replCore o os new 0 cs := by
  rw [replCore, replCore_skip o os new os.length cs]

/-- One-step unfolding of the occurrence count in terms of `List.drop`. -/
theorem countCore_cons (o : Char) (os : List Char) (c : Char) (cs : List Char) :
    countCore o os 0 (c :: cs) =
      if (o :: os).isPrefixOf (c :: cs) then countCore o os 0 (cs.drop os.length) + 1
      else countCore o os 0 cs := by
  rw [countCore, countCore_skip o os os.length cs]

/-- Length bookkeeping for replace-all: each of the `countCore` occurrences
exchanges `old` (length `os.length + 1`) for `new`. -/
theorem replCore_length (o : Char) (os new : List Char) :
    ∀ l : List Char,
      (replCore o os new 0 l).length + countCore o os 0 l * (os.length + 1) =
        l.length + countCore o os 0 l * new.length := by
  apply length_strong_induction
  intro l ih
  cases l with
  | nil => simp [replCore, countCore]
  | cons c cs =>
    rw [replCore_cons, countCore_cons]
    by_cases hp : (o :: os).isPrefixOf (c :: cs) = true
    · rw [if_pos hp, if_pos hp]
      have hle : os.length + 1 ≤ cs.length + 1 := by
        simpa using (isPrefixOf_eq.mp hp).length_le
      have hlen : (cs.drop os.length).length < (c :: cs).length := by
        simp only [List.length_drop, List.length_cons]
        omega
      have hrec := ih _ hlen
      simp only [List.length_append, List.length_cons, List.length_drop] at hrec ⊢
      rw [Nat.add_mul, Nat.add_mul, one_mul, one_mul]
      omega
    · rw [if_neg hp, if_neg hp]
      have hrec := ih cs (by simp)
      simp only [List.length_cons]
      omega

/-- If `o :: os` is a suffix of `l`, the replacement scan finds at least one
occurrence. -/
theorem countCore_pos_of_suffix (o : Char) (os : List Char) :
    ∀ l : List Char, (o :: os) <:+ l → 1 ≤ countCore o os 0 l := by
  intro l
  induction l with
  | nil =>
    intro h
    have := h.length_le
    simp at this
  | cons c cs ih =>
    intro h
    rw [countCore_cons]
    by_cases hp : (o :: os).isPrefixOf (c :: cs) = true
    · rw [if_pos hp]
      omega
    · rw [if_neg hp]
      rcases List.suffix_cons_iff.mp h with heq | hsuf
      · exact absurd (isPrefixOf_eq.mpr (heq ▸ List.prefix_refl _)) hp
      · exact ih hsuf

/-- Replace-all is injective in the replacement string as soon as there is
at least one occurrence of the pattern (here: the pattern is a suffix). -/
theorem replCore_inj (o : Char) (os n1 n2 : List Char) :
    ∀ l : List Char, (o :: os) <:+ l →
      replCore o os n1 0 l = replCore o os n2 0 l → n1 = n2 := by
  intro l
  induction l with
  | nil =>
    intro h
    have := h.length_le
    simp at this
  | cons c cs ih =>
    intro hsuf heq
    rw [replCore_cons, replCore_cons] at heq
    by_cases hp : (o :: os).isPrefixOf (c :: cs) = true
    · rw [if_pos hp, if_pos hp] at heq
      have hl := congrArg List.length heq
      have h1 := replCore_length o os n1 (cs.drop os.length)
      have h2 := replCore_length o os n2 (cs.drop os.length)
      simp only [List.length_append] at hl
      have hmul : (countCore o os 0 (cs.drop os.length) + 1) * n1.length =
          (countCore o os 0 (cs.drop os.length) + 1) * n2.length := by
        rw [Nat.add_mul, Nat.add_mul, one_mul, one_mul]
        omega
      have hlen : n1.length = n2.length :=
        Nat.eq_of_mul_eq_mul_left (Nat.succ_pos _) hmul
      exact (List.append_inj heq hlen).1
    · rw [if_neg hp, if_neg hp] at heq
      rcases List.suffix_cons_iff.mp hsuf with hcase | hsuf2
      · exact absurd (isPrefixOf_eq.mpr (hcase ▸ List.prefix_refl _)) hp
      · exact ih hsuf2 (List.cons_injective.eq_iff.mp heq)

/-- If the pattern occurs (here: as a suffix), the replacement string shows
up verbatim in the output of the replacement scan. -/
theorem replCore_decomp (o : Char) (os new : List Char) :
    ∀ l : List Char, (o :: os) <:+ l →
      ∃ p q, replCore o os new 0 l = p ++ new ++ q := by
  intro l
  induction l with
  | nil =>
    intro h
    have := h.length_le
    simp at this
  | cons c cs ih =>
    intro hsuf
    rw [replCore_cons]
    by_cases hp : (o :: os).isPrefixOf (c :: cs) = true
    · exact ⟨[], replCore o os new 0 (cs.drop os.length), by rw [if_pos hp]; simp⟩
    · rcases List.suffix_cons_iff.mp hsuf with hcase | hsuf2
      · exact absurd (isPrefixOf_eq.mpr (hcase ▸ List.prefix_refl _)) hp
      · obtain ⟨p, q, hpq⟩ := ih hsuf2
        exact ⟨c :: p, q, by rw [if_neg hp, hpq]; simp⟩

/-- Length of the empty-pattern interleaving. -/
theorem interleave_length (new : List Char) :
    ∀ l : List Char, (interleave new l).length = l.length * (new.length + 1) := by
  intro l
  induction l with
  | nil => simp [interleave]
  | cons c cs ih =>
    simp only [interleave, List.length_cons, List.length_append, ih]
    ring

/-- A digit character for a value below ten is a decimal digit. -/
theorem digitChar_isDigit {m : Nat} (h : m < 10) : (Nat.digitChar m).isDigit = true := by
  interval_cases m <;> decide

/-- Code point of a digit character for a value below ten. -/
theorem digitChar_toNat {m : Nat} (h : m < 10) : (Nat.digitChar m).toNat = 48 + m := by
  interval_cases m <;> decide

/-- With enough fuel, `natDigitsAux` is non-empty, consists of decimal
digits, and evaluates back to its input. -/
theorem natDigitsAux_spec :
    ∀ fuel n : Nat, n < fuel →
      natDigitsAux fuel n ≠ [] ∧ (∀ c ∈ natDigitsAux fuel n, c.isDigit = true) ∧
        digitsToNat (natDigitsAux fuel n) = n := by
  intro fuel
  induction fuel with
  | zero => intro n h; omega
  | succ fuel ih =>
    intro n hn
    by_cases h10 : n < 10
    · refine ⟨by simp [natDigitsAux, h10], ?_, ?_⟩
      · intro c hc
        simp only [natDigitsAux, if_pos h10, List.mem_singleton] at hc
        exact hc ▸ digitChar_isDigit h10
      · simp only [natDigitsAux, if_pos h10, digitsToNat, List.foldl_cons, List.foldl_nil]
        rw [digitChar_toNat h10]
        omega
    · have hdiv : n / 10 < fuel := by
        have h1 : n / 10 < n := Nat.div_lt_self (by omega) (by omega)
        omega
      obtain ⟨hne, hdig, hval⟩ := ih (n / 10) hdiv
      have hm : n % 10 < 10 := Nat.mod_lt _ (by omega)
      refine ⟨by simp [natDigitsAux, h10], ?_, ?_⟩
      · intro c hc
        simp only [natDigitsAux, if_neg h10, List.mem_append, List.mem_singleton] at hc
        rcases hc with hc | hc
        · exact hdig c hc
        · exact hc ▸ digitChar_isDigit hm
      · simp only [natDigitsAux, if_neg h10, digitsToNat, List.foldl_append,
          List.foldl_cons, List.foldl_nil]
        have hfold : List.foldl (fun a c => 10 * a + (c.toNat - 48)) 0
            (natDigitsAux fuel (n / 10)) = n / 10 := hval
        rw [hfold, digitChar_toNat hm]
        omega

/-- Decimal digit strings are never empty. -/
theorem natDigits_ne_nil (n : Nat) : natDigits n ≠ [] :=
  (natDigitsAux_spec (n + 1) n (by omega)).1

/-- Every character of a decimal digit string is a digit. -/
theorem natDigits_isDigit (n : Nat) : ∀ c ∈ natDigits n, c.isDigit = true :=
  (natDigitsAux_spec (n + 1) n (by omega)).2.1

/-- Evaluating a decimal digit string recovers the number. -/
theorem digitsToNat_natDigits (n : Nat) : digitsToNat (natDigits n) = n :=
  (natDigitsAux_spec (n + 1) n (by omega)).2.2

/-- Decimal printing is injective. -/
theorem natDigits_inj {a b : Nat} (h : natDigits a = natDigits b) : a = b := by
  have ha := digitsToNat_natDigits a
  rw [h, digitsToNat_natDigits] at ha
  omega

/-- The separator `x` of the size marker is not a decimal digit. -/
theorem x_not_mem_natDigits (n : Nat) : 'x' ∉ natDigits n := by
  intro hx
  have := natDigits_isDigit n 'x' hx
  simp [Char.isDigit] at this

/-- The digit-`x`-digit window test survives prepending a character. -/
theorem containsDXD_cons (c : Char) :
    ∀ l : List Char, containsDigitXDigit l = true → containsDigitXDigit (c :: l) = true := by
  intro l h
  cases l with
  | nil => simp [containsDigitXDigit] at h
  | cons a t =>
    cases t with
    | nil => simp [containsDigitXDigit] at h
    | cons b t2 =>
      simp only [containsDigitXDigit, Bool.or_eq_true]
      exact Or.inr h

/-- The digit-`x`-digit window test survives prepending a list. -/
theorem containsDXD_append_left (p : List Char) {l : List Char}
    (h : containsDigitXDigit l = true) : containsDigitXDigit (p ++ l) = true := by
  induction p with
  | nil => simpa
  | cons c p ih => simpa using containsDXD_cons c _ ih

/-- The digit-`x`-digit window test survives appending a list. -/
theorem containsDXD_append_right (q : List Char) :
    ∀ l : List Char, containsDigitXDigit l = true → containsDigitXDigit (l ++ q) = true := by
  intro l
  induction l with
  | nil => intro h; simp [containsDigitXDigit] at h
  | cons a t ih =>
    intro h
    cases t with
    | nil => simp [containsDigitXDigit] at h
    | cons b t2 =>
      cases t2 with
      | nil => simp [containsDigitXDigit] at h
      | cons d t3 =>
        simp only [containsDigitXDigit, Bool.or_eq_true] at h
        rcases h with h | h
        · simp only [List.cons_append, containsDigitXDigit, Bool.or_eq_true]
          exact Or.inl h
        · have := ih h
          simp only [List.cons_append, containsDigitXDigit, Bool.or_eq_true] at this ⊢
          exact Or.inr (by simpa using this)

/-- A non-empty digit run, the letter `x`, and another non-empty digit run
in a row make the window test succeed. -/
theorem containsDXD_digits (r : List Char) :
    ∀ ds : List Char, ds ≠ [] → (∀ c ∈ ds, c.isDigit = true) →
      ∀ es : List Char, es ≠ [] → (∀ c ∈ es, c.isDigit = true) →
        containsDigitXDigit (ds ++ 'x' :: (es ++ r)) = true := by
  intro ds
  induction ds with
  | nil => intro h; exact absurd rfl h
  | cons a t ih =>
    intro _ hdd es he hee
    cases t with
    | nil =>
      cases es with
      | nil => exact absurd rfl he
      | cons e es2 =>
        have ha : a.isDigit = true := hdd a (by simp)
        have hee2 : e.isDigit = true := hee e (by simp)
        simp [containsDigitXDigit, ha, hee2]
    | cons b t2 =>
      have hrec := ih (by simp) (fun c hc => hdd c (by simp [hc])) es he hee
      simpa using containsDXD_cons a _ hrec

/-- A non-empty extension computed by the backwards scan is a prefix of the
reversed input. -/
theorem extFromRev_front : ∀ l : List Char, extFromRev l ≠ [] → extFromRev l <+: l := by
  intro l
  induction l with
  | nil => intro h; exact absurd rfl h
  | cons c cs ih =>
    intro h
    by_cases h1 : c = '/'
    · simp [extFromRev, h1] at h
    · by_cases h2 : c = '.'
      · subst h2
        simp only [extFromRev, if_neg h1, if_pos rfl]
        exact ⟨cs, rfl⟩
      · rcases hr : extFromRev cs with _ | ⟨d, r⟩
        · simp [extFromRev, h1, h2, hr] at h
        · have hpre := ih (by simp [hr])
          rw [hr] at hpre
          simp only [extFromRev, if_neg h1, if_neg h2, hr]
          exact (List.cons_prefix_cons).mpr ⟨rfl, hpre⟩

/-- A non-empty `filepath.Ext` result is a suffix of the path. -/
theorem filepathExt_suffix (p : String) (h : (filepathExt p).data ≠ []) :
    (filepathExt p).data <:+ p.data := by
  have h2 : extFromRev p.data.reverse ≠ [] := by
    intro h0
    exact h (by simp [filepathExt, h0])
  have hp := extFromRev_front _ h2
  have : (extFromRev p.data.reverse).reverse <:+ p.data := by
    rw [← reverse_isPre]
    simpa using hp
  exact this

/-- Splitting a concatenation at a letter `x` that occurs in neither of the
leading lists is unambiguous. -/
theorem split_at_x {xs u : List Char} :
    ∀ {ys v : List Char}, 'x' ∉ xs → 'x' ∉ ys →
      xs ++ 'x' :: u = ys ++ 'x' :: v → xs = ys ∧ u = v := by
  induction xs with
  | nil =>
    intro ys v _ hy h
    cases ys with
    | nil => simpa using h
    | cons b ys2 =>
      simp only [List.nil_append, List.cons_append, List.cons.injEq] at h
      exact absurd (h.1 ▸ List.mem_cons_self b ys2) hy
  | cons a xs2 ih =>
    intro ys v hx hy h
    cases ys with
    | nil =>
      simp only [List.nil_append, List.cons_append, List.cons.injEq] at h
      exact absurd (h.1 ▸ List.mem_cons_self a xs2) hx
    | cons b ys2 =>
      simp only [List.cons_append, List.cons.injEq] at h
      obtain ⟨hab, htail⟩ := h
      have hx2 : 'x' ∉ xs2 := fun hm => hx (List.mem_cons_of_mem a hm)
      have hy2 : 'x' ∉ ys2 := fun hm => hy (List.mem_cons_of_mem b hm)
      obtain ⟨he, hu⟩ := ih hx2 hy2 htail
      exact ⟨by rw [hab, he], hu⟩

/-- The size-marker replacement string determines the width and height. -/
theorem sizeSuffix_inj {w h w' h' : Nat} {ext : String}
    (heq : (sizeSuffix w h ext).data = (sizeSuffix w' h' ext).data) : w = w' ∧ h = h' := by
  have hd : '_' :: (natDigits w ++ 'x' :: (natDigits h ++ ext.data)) =
      '_' :: (natDigits w' ++ 'x' :: (natDigits h' ++ ext.data)) := heq
  have hd2 : natDigits w ++ 'x' :: (natDigits h ++ ext.data) =
      natDigits w' ++ 'x' :: (natDigits h' ++ ext.data) := by
    injection hd
  obtain ⟨h1, h2⟩ := split_at_x (x_not_mem_natDigits w) (x_not_mem_natDigits w') hd2
  refine ⟨natDigits_inj h1, ?_⟩
  have hlen : (natDigits h).length = (natDigits h').length := by
    have hl := congrArg List.length h2
    simp only [List.length_append] at hl
    omega
  exact natDigits_inj (List.append_inj h2 hlen).1

/-- The size-marker replacement string passes the window test. -/
theorem containsDXD_sizeSuffix (w h : Nat) (ext : String) :
    containsDigitXDigit (sizeSuffix w h ext).data = true := by
  have := containsDXD_digits ext.data (natDigits w) (natDigits_ne_nil w)
    (natDigits_isDigit w) (natDigits h) (natDigits_ne_nil h) (natDigits_isDigit h)
  exact containsDXD_cons '_' _ this

/-- Character-list view of `thumbnailKey` when the key has no extension. -/
theorem thumbnailKey_data_nil (key : String) (sz : SizeTarget)
    (hext : (filepathExt key).data = []) :
    (thumbnailKey key sz).data =
      (sizeSuffix sz.x sz.y (filepathExt key)).data ++
        interleave (sizeSuffix sz.x sz.y (filepathExt key)).data key.data := by
  unfold thumbnailKey goReplaceAll
  rw [hext]

/-- Character-list view of `thumbnailKey` when the key has extension `o :: os`. -/
theorem thumbnailKey_data_cons (key : String) (sz : SizeTarget) (o : Char) (os : List Char)
    (hext : (filepathExt key).data = o :: os) :
    (thumbnailKey key sz).data =
      replCore o os (sizeSuffix sz.x sz.y (filepathExt key)).data 0 key.data := by
  unfold thumbnailKey goReplaceAll
  rw [hext]

/-- When no occurrence of the pattern `o :: os` starts strictly before the
trailing one, replace-all rewrites exactly the trailing occurrence. -/
theorem replCore_no_early (o : Char) (os new : List Char) :
    ∀ stem key : List Char, key = stem ++ o :: os →
      (∀ i, i < stem.length → ¬(o :: os).isPrefixOf (key.drop i) = true) →
      replCore o os new 0 key = stem ++ new := by
  intro stem
  induction stem with
  | nil =>
    intro key hk _
    subst hk
    rw [List.nil_append, List.nil_append, replCore_cons,
      if_pos (isPrefixOf_eq.mpr (List.prefix_refl _)), List.drop_length]
    simp [replCore]
  | cons c stem2 ih =>
    intro key hk hno
    subst hk
    rw [List.cons_append, replCore_cons]
    have h0 := hno 0 (by simp)
    rw [List.drop_zero, List.cons_append] at h0
    rw [if_neg h0, List.cons_append]
    congr 1
    refine ih _ rfl ?_
    intro i hi
    have hs := hno (i + 1) (by simp only [List.length_cons]; omega)
    rw [List.cons_append, List.drop_succ_cons] at hs
    exact hs

/-- C1: for every source key and every size target with positive width and
height, the `(\d+)x(\d+)` marker regexp (`sizePattern`, main.go line 29)
matches the derived key `thumbnailKey key size` (main.go lines 259-262), so
the anti-recursion guard in the eligibility filter of `S3Event` never
false-negatives on a key the pipeline itself produced. -/
theorem thumbnailKey_matches_sizePattern (key : String) (w h : Nat)
    (hw : 0 < w) (hh : 0 < h) :
    sizePatternMatch (thumbnailKey key ⟨w, h⟩) = true := by
  unfold sizePatternMatch
  rcases hext : (filepathExt key).data with _ | ⟨o, os⟩
  · rw [thumbnailKey_data_nil key ⟨w, h⟩ hext]
    exact containsDXD_append_right _ _ (containsDXD_sizeSuffix w h (filepathExt key))
  · rw [thumbnailKey_data_cons key ⟨w, h⟩ o os hext]
    have hsuf : (filepathExt key).data <:+ key.data :=
      filepathExt_suffix key (by simp [hext])
    rw [hext] at hsuf
    obtain ⟨p, q, hpq⟩ :=
      replCore_decomp o os (sizeSuffix w h (filepathExt key)).data key.data hsuf
    rw [hpq]
    exact containsDXD_append_right q _
      (containsDXD_append_left p (containsDXD_sizeSuffix w h (filepathExt key)))

/-- Witness for C1 at source key `photo.jpg` and size `100x100`. -/
theorem thumbnailKey_matches_sizePattern_witness :
    0 < 100 ∧ sizePatternMatch (thumbnailKey "photo.jpg" ⟨100, 100⟩) = true :=
  ⟨by decide, thumbnailKey_matches_sizePattern "photo.jpg" 100 100 (by decide) (by decide)⟩

/-- C2 counterexample: `thumbnailKey` does NOT replace only the trailing
extension segment.  `strings.Replace(key, ext, new, -1)` replaces every
occurrence of the extension, so for the source key `a.jpg.jpg` (whose
trailing extension `.jpg` also occurs earlier) the derived key is
`a_200x200.jpg_200x200.jpg`, not `a.jpg_200x200.jpg` as the claim's
path-without-extension formula would demand. -/
theorem thumbnailKey_trailing_cex :
    thumbnailKey "a.jpg.jpg" ⟨200, 200⟩ = "a_200x200.jpg_200x200.jpg" ∧
      thumbnailKey "a.jpg.jpg" ⟨200, 200⟩ ≠ "a.jpg_200x200.jpg" := by
  constructor
  · decide
  · decide

/-- C2 amended: `thumbnailKey key size` replaces every (left-to-right,
non-overlapping) occurrence of `filepath.Ext key` in `key` with
`_{width}x{height}{ext}`.  Whenever no occurrence of the extension starts
before the trailing one — in particular whenever the extension occurs
exactly once, as in `photos/a.jpg` — the result is exactly
`<path-without-extension>_<width>x<height><extension>`. -/
theorem thumbnailKey_trailing_amended (key : String) (w h : Nat) (o : Char) (os : List Char)
    (stem : List Char)
    (hext : (filepathExt key).data = o :: os)
    (hkey : key.data = stem ++ o :: os)
    (hno : ∀ i, i < stem.length → ¬(o :: os).isPrefixOf (key.data.drop i) = true) :
    (thumbnailKey key ⟨w, h⟩).data =
      stem ++ '_' :: (natDigits w ++ 'x' :: (natDigits h ++ (o :: os))) := by
  rw [thumbnailKey_data_cons key ⟨w, h⟩ o os hext]
  rw [hkey] at hno
  rw [hkey, replCore_no_early o os _ stem _ rfl hno]
  congr 1
  show ('_' : Char) :: (natDigits w ++ 'x' :: (natDigits h ++ (filepathExt key).data)) = _
  rw [hext]

/-- Witness for C2 (amended) at the spec's own example
`photos/a.jpg` with size `200x200`, which derives `photos/a_200x200.jpg`. -/
theorem thumbnailKey_trailing_amended_witness :
    (filepathExt "photos/a.jpg").data = '.' :: ['j', 'p', 'g'] ∧
    ("photos/a.jpg" : String).data = "photos/a".data ++ '.' :: ['j', 'p', 'g'] ∧
    (thumbnailKey "photos/a.jpg" ⟨200, 200⟩).data =
      "photos/a".data ++ '_' :: (natDigits 200 ++ 'x' :: (natDigits 200 ++ '.' :: ['j', 'p', 'g'])) :=
  ⟨by decide, by decide,
    thumbnailKey_trailing_amended "photos/a.jpg" 200 200 '.' ['j', 'p', 'g']
      "photos/a".data (by decide) (by decide) (by decide)⟩

/-- C4: for a fixed source key, `thumbnailKey` is deterministic (it is a
pure function of key and size, so equal inputs give equal outputs) and
injective across size targets: two size targets that derive the same
output key are the same width/height pair. -/
theorem thumbnailKey_deterministic_injective (key : String) (w h w' h' : Nat)
    (heq : thumbnailKey key ⟨w, h⟩ = thumbnailKey key ⟨w', h'⟩) :
    (w = w' ∧ h = h') ∧ thumbnailKey key ⟨w, h⟩ = thumbnailKey key ⟨w, h⟩ := by
  refine ⟨?_, rfl⟩
  have hd := congrArg String.data heq
  rcases hext : (filepathExt key).data with _ | ⟨o, os⟩
  · rw [thumbnailKey_data_nil key ⟨w, h⟩ hext, thumbnailKey_data_nil key ⟨w', h'⟩ hext] at hd
    have hlen := congrArg List.length hd
    simp only [List.length_append, interleave_length] at hlen
    have expand : ∀ a k : Nat, a + k * (a + 1) = (k + 1) * a + k := by
      intro a k
      ring
    rw [expand, expand] at hlen
    have hmul : (key.data.length + 1) * (sizeSuffix w h (filepathExt key)).data.length =
        (key.data.length + 1) * (sizeSuffix w' h' (filepathExt key)).data.length := by
      omega
    have hlen2 : (sizeSuffix w h (filepathExt key)).data.length =
        (sizeSuffix w' h' (filepathExt key)).data.length :=
      Nat.eq_of_mul_eq_mul_left (by omega) hmul
    exact sizeSuffix_inj (List.append_inj hd hlen2).1
  · rw [thumbnailKey_data_cons key ⟨w, h⟩ o os hext,
      thumbnailKey_data_cons key ⟨w', h'⟩ o os hext] at hd
    have hsuf : (filepathExt key).data <:+ key.data :=
      filepathExt_suffix key (by simp [hext])
    rw [hext] at hsuf
    exact sizeSuffix_inj (replCore_inj o os _ _ key.data hsuf hd)

/-- Witness for C4 at source key `a.jpg` and equal size targets `3x4`. -/
theorem thumbnailKey_deterministic_injective_witness :
    (3 = 3 ∧ 4 = 4) ∧ thumbnailKey "a.jpg" ⟨3, 4⟩ = thumbnailKey "a.jpg" ⟨3, 4⟩ :=
  thumbnailKey_deterministic_injective "a.jpg" 3 4 3 4 rfl

/-! The eligibility filter and the fan-out scheduler. -/

/-- Model of Go `strings.ToLower` on one character: `strings.ToLower` maps
every rune through `unicode.ToLower`, which adds 32 to the code point of
an ASCII capital letter.  No non-ASCII rune lowercases to any of `.`,
`j`, `p`, `g`, so for the `.jpg` suffix test below this ASCII mapping is
extensionally the full Unicode mapping. -/
def goToLowerChar (c : Char) : Char :=
  if 'A' ≤ c ∧ c ≤ 'Z' then Char.ofNat (c.toNat + 32) else c

/-- Model of Go `strings.ToLower`. -/
def goToLower (s : String) : String :=
  ⟨s.data.map goToLowerChar⟩

/-- Model of Go `strings.HasSuffix`. -/
def hasSuffixStr (s suf : String) : Bool :=
  suf.data.isSuffixOf s.data

/-- Outcome of the eligibility checks at the top of the `S3Event` record
loop (main.go lines 130-152), in source order. -/
inductive Screen where
  | skipDirectory
  | skipThumbnail
  | skipUnsupported
  | dispatch
deriving DecidableEq, Repr

/-- The three `if ... continue` guards of the `S3Event` record loop, first
match wins: a trailing `/` marks a directory; a `sizePattern` match marks
a thumbnail the pipeline itself uploaded; then only keys with a
case-insensitive `.jpg` extension survive. -/
def screen (key : String) : Screen :=
  if hasSuffixStr key "/" then .skipDirectory
  else if sizePatternMatch key then .skipThumbnail
  else if !hasSuffixStr (goToLower key) ".jpg" then .skipUnsupported
  else .dispatch

/-- Abstract decoded raster image (`image.Image`): the pipeline only hands
it from the decoder to the resize engine, so it is an opaque tag here. -/
structure Img where
  id : Nat
deriving DecidableEq, Repr

/-- One S3 `PutObjectWithContext` request as built by `saveThumbnail`
(main.go lines 244-250). -/
structure PutCall where
  bucket : String
  key : String
  body : List Nat
  storageCls : String
  metaKind : String
deriving DecidableEq, Repr

/-- Oracle for the external collaborators: `readImage` is S3 fetch plus
jpeg decode (`none` covers both a failed `GetObjectWithContext` and a
failed `jpeg.Decode`), `resizeThumb` is the resize engine, `encodeJpeg`
is `jpeg.Encode` (`none` = encode failure), and `putOk` decides the
outcome of `PutObjectWithContext` after the client's own retries. -/
structure Env where
  readImage : String → String → Option Img
  resizeThumb : Img → SizeTarget → Img
  encodeJpeg : Img → Option (List Nat)
  putOk : String → String → Bool

/-- Observable events of one batch invocation.  The trace linearizes the
goroutine fan-out in spawn order; every property proved below is a
counting / membership / segment property, insensitive to the actual
interleaving of the concurrent workers.  `outerAdd` / `outerDone` are
`wg.Add` / `wg.Done` on the batch barrier, `innerAdd` / `innerDone` the
same on a per-object thumbnail barrier; informational success logs are
not modelled, failure logs are. -/
inductive Ev where
  | outerAdd (n : Nat)
  | outerDone
  | innerAdd (n : Nat)
  | innerDone
  | getObject (bucket key : String)
  | putObject (p : PutCall) (ok : Bool)
  | logSkip (key : String) (reason : Screen)
  | logReadFailed (bucket key : String)
  | logEncodeFailed (key : String)
  | logSaveFailed (key : String)
deriving DecidableEq, Repr

/-- Failure modes of a size-worker's save step (§7 taxonomy: EncodeError
and PutError). -/
inductive SaveErr where
  | encodeError
  | putError
deriving DecidableEq, Repr

/-- Model of `Imaging.saveThumbnail` (main.go lines 233-256): encode the
thumbnail at the default jpeg quality; on encode failure log and return
the error before touching storage; otherwise issue exactly one
`PutObject` with storage class `"STANDARD"`
(`s3.ObjectStorageClassStandard`) and metadata tag `kind = thumbnail`,
returning the put's outcome. -/
def saveThumbnailRun (env : Env) (thumb : Img) (bucket key : String) :
    Except SaveErr Unit × List Ev :=
  match env.encodeJpeg thumb with
  | none => (.error .encodeError, [.logEncodeFailed key])
  | some body =>
    let p : PutCall := ⟨bucket, key, body, "STANDARD", "thumbnail"⟩
    if env.putOk bucket key then (.ok (), [.putObject p true])
    else (.error .putError, [.putObject p false])

/-- Model of `Imaging.createThumbnail` (main.go lines 210-230): resize,
derive the output key, save; log a failed save; always release the inner
barrier token (`defer wg.Done()`), never touching the outer barrier. -/
def createThumbnailRun (env : Env) (bucket key : String) (src : Img)
    (size : SizeTarget) : List Ev :=
  let tkey := thumbnailKey key size
  let r := saveThumbnailRun env (env.resizeThumb src size) bucket tkey
  (r.2 ++
    match r.1 with
    | .error _ => [.logSaveFailed tkey]
    | .ok _ => []) ++ [.innerDone]

/-- Concatenation of the traces of a family of workers (the linearization
of one `go`-spawned family, in spawn order). -/
def runAll {α : Type} (f : α → List Ev) : List α → List Ev
  | [] => []
  | a :: as => f a ++ runAll f as

/-- Model of `Imaging.onImageCreated` (main.go lines 161-179): fetch and
decode once; on failure log and just finish (releasing the outer barrier
token, spawning nothing); on success set the inner barrier to the number
of configured sizes, run one size-worker per size, wait for them, then
finish. -/
def onImageCreatedRun (env : Env) (sizes : List SizeTarget) (bucket key : String) :
    List Ev :=
  match env.readImage bucket key with
  | none => [.getObject bucket key, .logReadFailed bucket key, .outerDone]
  | some src =>
    .getObject bucket key :: .innerAdd sizes.length ::
      (runAll (createThumbnailRun env bucket key src) sizes ++ [.outerDone])

/-- Bucket and key of one record of the triggering `events.S3Event`; the
pipeline reads no other notification field. -/
structure S3Record where
  bucket : String
  key : String
deriving DecidableEq, Repr

/-- One iteration of the `S3Event` record loop: each screening guard logs
and releases the outer barrier token inline (`wg.Done(); continue`); a
surviving record runs as an object-worker. -/
def recordRun (env : Env) (sizes : List SizeTarget) (r : S3Record) : List Ev :=
  match screen r.key with
  | .dispatch => onImageCreatedRun env sizes r.bucket r.key
  | s => [.logSkip r.key s, .outerDone]

/-- Model of `Imaging.S3Event` (main.go lines 125-158): set the outer
barrier to the number of records (`wg.Add(len(s3Event.Records))`), run
the loop, `wg.Wait()`.  The wait is represented by the trace being
complete, and the Go function has no return value, which is why the model
returns only the trace (there is no error channel to return through). -/
def s3EventRun (env : Env) (sizes : List SizeTarget) (records : List S3Record) :
    List Ev :=
  .outerAdd records.length :: runAll (recordRun env sizes) records

/-- Number of trace events satisfying a predicate. -/
def countEv (p : Ev → Bool) (l : List Ev) : Nat :=
  (l.filter p).length

/-- Recognizer for outer-barrier releases. -/
def isOuterDone : Ev → Bool
  | .outerDone => true
  | _ => false

/-- Recognizer for inner-barrier releases. -/
def isInnerDone : Ev → Bool
  | .innerDone => true
  | _ => false

/-- The put requests issued in a trace (attempted puts, successful or
not). -/
def putEvents : List Ev → List PutCall
  | [] => []
  | .putObject p _ :: rest => p :: putEvents rest
  | _ :: rest => putEvents rest

/-- `countEv` is additive over concatenation. -/
theorem countEv_append (p : Ev → Bool) (a b : List Ev) :
    countEv p (a ++ b) = countEv p a + countEv p b := by
  simp [countEv, List.filter_append]

/-- `runAll` distributes over concatenation of the worker family. -/
theorem runAll_append {α : Type} (f : α → List Ev) (a b : List α) :
    runAll f (a ++ b) = runAll f a ++ runAll f b := by
  induction a with
  | nil => simp [runAll]
  | cons x xs ih => simp [runAll, ih]

/-- Counting over a worker family whose members each contribute `c`. -/
theorem runAll_countEv {α : Type} (p : Ev → Bool) (f : α → List Ev) (c : Nat)
    (h : ∀ a, countEv p (f a) = c) :
    ∀ l : List α, countEv p (runAll f l) = l.length * c := by
  intro l
  induction l with
  | nil => simp [runAll, countEv]
  | cons a as ih =>
    rw [runAll, countEv_append, h, ih, List.length_cons]
    ring

/-- `putEvents` is additive over concatenation. -/
theorem putEvents_append (a b : List Ev) :
    putEvents (a ++ b) = putEvents a ++ putEvents b := by
  induction a with
  | nil => simp [putEvents]
  | cons e rest ih =>
    cases e <;> simp [putEvents, ih]

/-- C3: the eligibility decision in `S3Event` applies its rules in order,
first match wins: a key ending in `/` is skipped as a directory; otherwise
a key matching the `{digits}x{digits}` marker pattern is skipped as a
derived thumbnail — even if it also has a supported extension, since the
extension is never consulted in that case — and no object-worker runs for
it; otherwise a key whose lower-cased form does not end in `.jpg` is
skipped as unsupported; otherwise the record is dispatched to an
object-worker.  The last conjunct shows a screened-out record contributes
only its skip log and barrier release: no fetch, no workers, no puts. -/
theorem screen_rules_in_order (key : String) :
    (hasSuffixStr key "/" = true → screen key = .skipDirectory) ∧
    (hasSuffixStr key "/" = false → sizePatternMatch key = true →
      screen key = .skipThumbnail) ∧
    (hasSuffixStr key "/" = false → sizePatternMatch key = false →
      hasSuffixStr (goToLower key) ".jpg" = false → screen key = .skipUnsupported) ∧
    (hasSuffixStr key "/" = false → sizePatternMatch key = false →
      hasSuffixStr (goToLower key) ".jpg" = true → screen key = .dispatch) ∧
    (∀ (env : Env) (sizes : List SizeTarget) (bucket : String),
      screen key ≠ .dispatch →
        recordRun env sizes ⟨bucket, key⟩ = [.logSkip key (screen key), .outerDone]) := by
  refine ⟨?_, ?_, ?_, ?_, ?_⟩
  · intro h1
    simp [screen, h1]
  · intro h1 h2
    simp [screen, h1, h2]
  · intro h1 h2 h3
    simp [screen, h1, h2, h3]
  · intro h1 h2 h3
    simp [screen, h1, h2, h3]
  · intro env sizes bucket hne
    rcases hs : screen key with _ | _ | _ | _ <;>
      simp [recordRun, hs] <;> exact absurd hs hne

/-- Witness for C3 at the key `a100x100.jpg`, which has a supported
extension but matches the marker pattern, and is therefore skipped with
no object-worker events beyond its log and barrier release. -/
theorem screen_rules_in_order_witness :
    hasSuffixStr "a100x100.jpg" "/" = false ∧
    sizePatternMatch "a100x100.jpg" = true ∧
    screen "a100x100.jpg" = .skipThumbnail ∧
    screen "dir/" = .skipDirectory ∧
    screen "notes.txt" = .skipUnsupported ∧
    screen "photo.JPG" = .dispatch ∧
    recordRun (Env.mk (fun _ _ => none) (fun i _ => i) (fun _ => none) (fun _ _ => false))
        [] ⟨"b", "a100x100.jpg"⟩ =
      [.logSkip "a100x100.jpg" .skipThumbnail, .outerDone] := by
  refine ⟨by decide, by decide, ?_, ?_, ?_, ?_, ?_⟩
  · exact (screen_rules_in_order "a100x100.jpg").2.1 (by decide) (by decide)
  · exact (screen_rules_in_order "dir/").1 (by decide)
  · exact (screen_rules_in_order "notes.txt").2.2.1 (by decide) (by decide) (by decide)
  · exact (screen_rules_in_order "photo.JPG").2.2.2.1 (by decide) (by decide) (by decide)
  · have h := (screen_rules_in_order "a100x100.jpg").2.2.2.2
      (Env.mk (fun _ _ => none) (fun i _ => i) (fun _ => none) (fun _ _ => false))
      [] "b" (by decide)
    exact h.trans (by decide)

/-- A size-worker never touches the outer barrier and releases the inner
barrier exactly once, whatever the encode and put outcomes. -/
theorem createThumbnailRun_counts (env : Env) (bucket key : String) (src : Img)
    (sz : SizeTarget) :
    countEv isOuterDone (createThumbnailRun env bucket key src sz) = 0 ∧
    countEv isInnerDone (createThumbnailRun env bucket key src sz) = 1 := by
  unfold createThumbnailRun saveThumbnailRun
  rcases henc : env.encodeJpeg (env.resizeThumb src sz) with _ | body
  · simp [countEv, isOuterDone, isInnerDone]
  · by_cases hput : env.putOk bucket (thumbnailKey key sz) = true
    · simp [hput, countEv, isOuterDone, isInnerDone]
    · simp [hput, countEv, isOuterDone, isInnerDone]

/-- Unfolding of the object-worker on a failed fetch or decode. -/
theorem onImageCreatedRun_none (env : Env) (sizes : List SizeTarget)
    (bucket key : String) (h : env.readImage bucket key = none) :
    onImageCreatedRun env sizes bucket key =
      [.getObject bucket key, .logReadFailed bucket key, .outerDone] := by
  unfold onImageCreatedRun
  rw [h]

/-- Unfolding of the object-worker on a successful fetch and decode. -/
theorem onImageCreatedRun_some (env : Env) (sizes : List SizeTarget)
    (bucket key : String) (src : Img) (h : env.readImage bucket key = some src) :
    onImageCreatedRun env sizes bucket key =
      [.getObject bucket key, .innerAdd sizes.length] ++
        (runAll (createThumbnailRun env bucket key src) sizes ++ [.outerDone]) := by
  unfold onImageCreatedRun
  rw [h]
  rfl

/-- An object-worker releases the outer barrier exactly once, whatever the
fetch/decode outcome and the fate of its size-workers. -/
theorem onImageCreatedRun_outer (env : Env) (sizes : List SizeTarget)
    (bucket key : String) :
    countEv isOuterDone (onImageCreatedRun env sizes bucket key) = 1 := by
  rcases hread : env.readImage bucket key with _ | src
  · rw [onImageCreatedRun_none env sizes bucket key hread]
    simp [countEv, isOuterDone]
  · rw [onImageCreatedRun_some env sizes bucket key src hread]
    rw [countEv_append, countEv_append,
      runAll_countEv isOuterDone _ 0
        (fun a => (createThumbnailRun_counts env bucket key src a).1)]
    simp [countEv, isOuterDone]

/-- Every record of the batch — screened out or dispatched — releases the
outer barrier exactly once. -/
theorem recordRun_outer (env : Env) (sizes : List SizeTarget) (r : S3Record) :
    countEv isOuterDone (recordRun env sizes r) = 1 := by
  unfold recordRun
  rcases hs : screen r.key with _ | _ | _ | _ <;>
    simp [countEv, isOuterDone, onImageCreatedRun_outer env sizes r.bucket r.key]
  exact onImageCreatedRun_outer env sizes r.bucket r.key

/-- C5: the completion barrier of `S3Event` is initialized to the number
of records N (`wg.Add`) and released exactly once per record — inline for
each screened-out record, at worker exit (`defer wg.Done`) for each
dispatched one — so the trace of the invocation contains exactly N outer
releases and `wg.Wait` returns only after all of them; a batch with N = 0
produces nothing beyond its `wg.Add(0)` and terminates immediately.  For
a dispatched record whose fetch+decode succeeds, the inner barrier of
`onImageCreated` is set to the number of configured size targets and is
released exactly that many times by the size-workers. -/
theorem s3Event_barrier_counts (env : Env) (sizes : List SizeTarget)
    (records : List S3Record) :
    (∃ rest, s3EventRun env sizes records = .outerAdd records.length :: rest) ∧
    countEv isOuterDone (s3EventRun env sizes records) = records.length ∧
    (records = [] → s3EventRun env sizes records = [.outerAdd 0]) ∧
    (∀ r : S3Record, countEv isOuterDone (recordRun env sizes r) = 1) ∧
    (∀ bucket key : String, ∀ src : Img, env.readImage bucket key = some src →
      (∃ rest, onImageCreatedRun env sizes bucket key =
          .getObject bucket key :: .innerAdd sizes.length :: rest) ∧
        countEv isInnerDone (onImageCreatedRun env sizes bucket key) = sizes.length) := by
  refine ⟨⟨_, rfl⟩, ?_, ?_, recordRun_outer env sizes, ?_⟩
  · show countEv isOuterDone (.outerAdd records.length :: runAll (recordRun env sizes) records) = _
    rw [show (Ev.outerAdd records.length :: runAll (recordRun env sizes) records) =
      [Ev.outerAdd records.length] ++ runAll (recordRun env sizes) records from rfl]
    rw [countEv_append, runAll_countEv isOuterDone _ 1 (recordRun_outer env sizes)]
    simp [countEv, isOuterDone]
  · intro h
    subst h
    rfl
  · intro bucket key src hread
    rw [onImageCreatedRun_some env sizes bucket key src hread]
    refine ⟨⟨_, rfl⟩, ?_⟩
    rw [countEv_append, countEv_append,
      runAll_countEv isInnerDone _ 1
        (fun a => (createThumbnailRun_counts env bucket key src a).2)]
    simp [countEv, isInnerDone]

/-- Concrete oracle used by the witnesses: every fetch+decode succeeds,
resizing is the identity tag, encoding always yields the byte `[7]`, and
every put succeeds. -/
def constEnv : Env :=
  ⟨fun _ _ => some ⟨0⟩, fun i _ => i, fun _ => some [7], fun _ _ => true⟩

/-- Witness for C5 on a two-record batch (one directory, one image) with
one configured size, plus the empty batch. -/
theorem s3Event_barrier_counts_witness :
    countEv isOuterDone
        (s3EventRun constEnv [⟨100, 100⟩] [⟨"b", "dir/"⟩, ⟨"b", "a.jpg"⟩]) = 2 ∧
    constEnv.readImage "b" "a.jpg" = some ⟨0⟩ ∧
    countEv isInnerDone (onImageCreatedRun constEnv [⟨100, 100⟩] "b" "a.jpg") = 1 ∧
    s3EventRun constEnv [⟨100, 100⟩] [] = [.outerAdd 0] := by
  refine ⟨?_, by decide, ?_, ?_⟩
  · exact (s3Event_barrier_counts constEnv [⟨100, 100⟩] [⟨"b", "dir/"⟩, ⟨"b", "a.jpg"⟩]).2.1
  · exact ((s3Event_barrier_counts constEnv [⟨100, 100⟩]
      [⟨"b", "dir/"⟩, ⟨"b", "a.jpg"⟩]).2.2.2.2 "b" "a.jpg" ⟨0⟩ rfl).2
  · exact (s3Event_barrier_counts constEnv [⟨100, 100⟩] []).2.2.1 rfl

/-- C6: per-item failures are isolated and never escape.  In order: the
batch trace decomposes into independent per-record segments, so one
record's failure leaves every other record's processing unchanged; an
object-worker whose fetch or decode fails contributes only its fetch
attempt, a failure log and its barrier release — no size-workers, no
puts; an object-worker that decodes runs one size-worker per configured
size, and those size-worker segments are independent of each other; a
size-worker always ends by releasing the inner barrier — never the outer
one — whatever its save outcome; and a size-worker whose put fails (after
a successful encode) contributes exactly its failed put attempt, a
failure log, and its barrier release.  `S3Event` itself has no return
value in the source, so the model's only output is the trace: there is no
error channel through which any of these failures could escape the
batch. -/
theorem s3Event_failure_isolation (env : Env) (sizes : List SizeTarget)
    (rs1 rs2 : List S3Record) (r : S3Record) (bucket key : String) (src : Img)
    (sz : SizeTarget) (body : List Nat) :
    (s3EventRun env sizes (rs1 ++ r :: rs2) =
      .outerAdd (rs1 ++ r :: rs2).length ::
        (runAll (recordRun env sizes) rs1 ++
          (recordRun env sizes r ++ runAll (recordRun env sizes) rs2))) ∧
    (env.readImage bucket key = none →
      onImageCreatedRun env sizes bucket key =
        [.getObject bucket key, .logReadFailed bucket key, .outerDone]) ∧
    (env.readImage bucket key = some src →
      onImageCreatedRun env sizes bucket key =
        .getObject bucket key :: .innerAdd sizes.length ::
          (runAll (createThumbnailRun env bucket key src) sizes ++ [.outerDone])) ∧
    (∀ szs1 szs2 : List SizeTarget,
      runAll (createThumbnailRun env bucket key src) (szs1 ++ sz :: szs2) =
        runAll (createThumbnailRun env bucket key src) szs1 ++
          (createThumbnailRun env bucket key src sz ++
            runAll (createThumbnailRun env bucket key src) szs2)) ∧
    (∃ pre, createThumbnailRun env bucket key src sz = pre ++ [.innerDone] ∧
      countEv isOuterDone (createThumbnailRun env bucket key src sz) = 0) ∧
    (env.encodeJpeg (env.resizeThumb src sz) = some body →
      env.putOk bucket (thumbnailKey key sz) = false →
        createThumbnailRun env bucket key src sz =
          [.putObject ⟨bucket, thumbnailKey key sz, body, "STANDARD", "thumbnail"⟩ false,
            .logSaveFailed (thumbnailKey key sz), .innerDone]) := by
  refine ⟨?_, ?_, ?_, ?_, ?_, ?_⟩
  · unfold s3EventRun
    rw [runAll_append]
    rfl
  · intro h
    unfold onImageCreatedRun
    rw [h]
  · intro h
    unfold onImageCreatedRun
    rw [h]
  · intro szs1 szs2
    rw [runAll_append]
    rfl
  · refine ⟨_, rfl, (createThumbnailRun_counts env bucket key src sz).1⟩
  · intro henc hput
    unfold createThumbnailRun saveThumbnailRun
    rw [henc]
    simp [hput]

/-- Witness for C6: a batch where the middle record's fetch fails while
its neighbours are a directory and a healthy image, and a size-worker
whose put fails. -/
theorem s3Event_failure_isolation_witness :
    (Env.mk (fun _ k => if k = "bad.jpg" then none else some ⟨0⟩) (fun i _ => i)
        (fun _ => some [7]) (fun _ _ => false)).readImage "b" "bad.jpg" = none ∧
    onImageCreatedRun
        (Env.mk (fun _ k => if k = "bad.jpg" then none else some ⟨0⟩) (fun i _ => i)
          (fun _ => some [7]) (fun _ _ => false)) [⟨100, 100⟩] "b" "bad.jpg" =
      [.getObject "b" "bad.jpg", .logReadFailed "b" "bad.jpg", .outerDone] ∧
    createThumbnailRun
        (Env.mk (fun _ k => if k = "bad.jpg" then none else some ⟨0⟩) (fun i _ => i)
          (fun _ => some [7]) (fun _ _ => false)) "b" "a.jpg" ⟨0⟩ ⟨100, 100⟩ =
      [.putObject ⟨"b", "a_100x100.jpg", [7], "STANDARD", "thumbnail"⟩ false,
        .logSaveFailed "a_100x100.jpg", .innerDone] ∧
    onImageCreatedRun
        (Env.mk (fun _ k => if k = "bad.jpg" then none else some ⟨0⟩) (fun i _ => i)
          (fun _ => some [7]) (fun _ _ => false)) [⟨100, 100⟩] "b" "a.jpg" =
      [.getObject "b" "a.jpg", .innerAdd 1] ++
        (runAll (createThumbnailRun
          (Env.mk (fun _ k => if k = "bad.jpg" then none else some ⟨0⟩) (fun i _ => i)
            (fun _ => some [7]) (fun _ _ => false)) "b" "a.jpg" ⟨0⟩) [⟨100, 100⟩] ++
          [.outerDone]) := by
  refine ⟨by decide, ?_, ?_, ?_⟩
  · exact (s3Event_failure_isolation
      (Env.mk (fun _ k => if k = "bad.jpg" then none else some ⟨0⟩) (fun i _ => i)
        (fun _ => some [7]) (fun _ _ => false)) [⟨100, 100⟩] [] [] ⟨"b", "x"⟩
      "b" "bad.jpg" ⟨0⟩ ⟨100, 100⟩ [7]).2.1 (by decide)
  · have h := (s3Event_failure_isolation
      (Env.mk (fun _ k => if k = "bad.jpg" then none else some ⟨0⟩) (fun i _ => i)
        (fun _ => some [7]) (fun _ _ => false)) [⟨100, 100⟩] [] [] ⟨"b", "x"⟩
      "b" "a.jpg" ⟨0⟩ ⟨100, 100⟩ [7]).2.2.2.2.2 (by decide) (by decide)
    exact h.trans (by decide)
  · have h := (s3Event_failure_isolation
      (Env.mk (fun _ k => if k = "bad.jpg" then none else some ⟨0⟩) (fun i _ => i)
        (fun _ => some [7]) (fun _ _ => false)) [⟨100, 100⟩] [] [] ⟨"b", "x"⟩
      "b" "a.jpg" ⟨0⟩ ⟨100, 100⟩ [7]).2.2.1 (by decide)
    exact h.trans (by decide)

/-- A size-worker whose encode succeeds issues exactly one put, keyed by
`thumbnailKey`, to its own bucket. -/
theorem createThumbnailRun_put (env : Env) (bucket key : String) (src : Img)
    (sz : SizeTarget) (h : (env.encodeJpeg (env.resizeThumb src sz)).isSome = true) :
    ∃ body, env.encodeJpeg (env.resizeThumb src sz) = some body ∧
      putEvents (createThumbnailRun env bucket key src sz) =
        [⟨bucket, thumbnailKey key sz, body, "STANDARD", "thumbnail"⟩] := by
  rcases henc : env.encodeJpeg (env.resizeThumb src sz) with _ | body
  · rw [henc] at h
    simp at h
  · refine ⟨body, rfl, ?_⟩
    unfold createThumbnailRun saveThumbnailRun
    rw [henc]
    by_cases hput : env.putOk bucket (thumbnailKey key sz) = true
    · simp [hput, putEvents_append, putEvents]
    · simp [hput, putEvents_append, putEvents]

/-- C7: for every notification whose object is fetched and decoded
successfully and whose thumbnails all encode, exactly one PUT is issued
per configured size target (whether or not the individual puts succeed),
each to the key derived by `thumbnailKey` from the source key and that
size, in configuration order, and all into the source bucket. -/
theorem onImageCreated_puts_per_size (env : Env) (sizes : List SizeTarget)
    (bucket key : String) (src : Img)
    (hread : env.readImage bucket key = some src)
    (henc : ∀ sz ∈ sizes, (env.encodeJpeg (env.resizeThumb src sz)).isSome = true) :
    (putEvents (onImageCreatedRun env sizes bucket key)).map PutCall.key =
        sizes.map (fun sz => thumbnailKey key sz) ∧
    ∀ p ∈ putEvents (onImageCreatedRun env sizes bucket key), p.bucket = bucket := by
  rw [onImageCreatedRun_some env sizes bucket key src hread]
  have hfam : ∀ szs : List SizeTarget,
      (∀ sz ∈ szs, (env.encodeJpeg (env.resizeThumb src sz)).isSome = true) →
        (putEvents (runAll (createThumbnailRun env bucket key src) szs)).map PutCall.key =
            szs.map (fun sz => thumbnailKey key sz) ∧
          ∀ p ∈ putEvents (runAll (createThumbnailRun env bucket key src) szs),
            p.bucket = bucket := by
    intro szs
    induction szs with
    | nil => intro _; simp [runAll, putEvents]
    | cons sz rest ih =>
      intro hall
      obtain ⟨body, hbody, hput⟩ :=
        createThumbnailRun_put env bucket key src sz (hall sz (by simp))
      obtain ⟨ih1, ih2⟩ := ih (fun a ha => hall a (by simp [ha]))
      rw [runAll, putEvents_append, hput]
      constructor
      · simp [ih1]
      · intro p hp
        rcases List.mem_append.mp hp with hp | hp
        · rw [List.mem_singleton.mp hp]
        · exact ih2 p hp
  obtain ⟨h1, h2⟩ := hfam sizes henc
  constructor
  · rw [putEvents_append, putEvents_append]
    simpa [putEvents] using h1
  · intro p hp
    refine h2 p ?_
    rw [putEvents_append, putEvents_append] at hp
    simpa [putEvents] using hp

/-- Witness for C7: the spec's scenario — sizes `[{100,100},{200,200}]`,
source `photo.jpg` decodes successfully — yields exactly the two put keys
`photo_100x100.jpg` and `photo_200x200.jpg`. -/
theorem onImageCreated_puts_per_size_witness :
    constEnv.readImage "b" "photo.jpg" = some ⟨0⟩ ∧
    (putEvents (onImageCreatedRun constEnv [⟨100, 100⟩, ⟨200, 200⟩] "b"
        "photo.jpg")).map PutCall.key = ["photo_100x100.jpg", "photo_200x200.jpg"] := by
  refine ⟨by decide, ?_⟩
  have h := (onImageCreated_puts_per_size constEnv [⟨100, 100⟩, ⟨200, 200⟩] "b"
    "photo.jpg" ⟨0⟩ rfl (by decide)).1
  exact h.trans (by decide)

/-- C10: `saveThumbnail` returns the encode error before issuing any PUT —
on an encode failure the trace holds no put at all, so storage is
untouched for that (object, size) unit — a put can appear in the trace
only once encoding has succeeded, and every put that is issued carries
storage class `"STANDARD"` and the metadata tag `kind = thumbnail`. -/
theorem saveThumbnail_encode_gate (env : Env) (thumb : Img) (bucket key : String) :
    (env.encodeJpeg thumb = none →
      saveThumbnailRun env thumb bucket key =
          (.error .encodeError, [.logEncodeFailed key]) ∧
        putEvents (saveThumbnailRun env thumb bucket key).2 = []) ∧
    (∀ p ∈ putEvents (saveThumbnailRun env thumb bucket key).2,
      p.storageCls = "STANDARD" ∧ p.metaKind = "thumbnail" ∧
        p.bucket = bucket ∧ p.key = key) ∧
    (putEvents (saveThumbnailRun env thumb bucket key).2 ≠ [] →
      ∃ body, env.encodeJpeg thumb = some body) := by
  refine ⟨?_, ?_, ?_⟩
  · intro h
    unfold saveThumbnailRun
    rw [h]
    exact ⟨rfl, rfl⟩
  · intro p hp
    unfold saveThumbnailRun at hp
    rcases henc : env.encodeJpeg thumb with _ | body
    · rw [henc] at hp
      simp [putEvents] at hp
    · rw [henc] at hp
      by_cases hput : env.putOk bucket key = true
      · simp [hput, putEvents] at hp
        subst hp
        exact ⟨rfl, rfl, rfl, rfl⟩
      · simp [hput, putEvents] at hp
        subst hp
        exact ⟨rfl, rfl, rfl, rfl⟩
  · intro hne
    rcases henc : env.encodeJpeg thumb with _ | body
    · exfalso
      apply hne
      unfold saveThumbnailRun
      rw [henc]
      rfl
    · exact ⟨body, rfl⟩

/-- Witness for C10: an environment whose encoder always fails leads to an
empty put list and the encode error; an environment whose encoder
succeeds issues a put carrying the standard storage class and the
thumbnail metadata tag. -/
theorem saveThumbnail_encode_gate_witness :
    (Env.mk (fun _ _ => some ⟨0⟩) (fun i _ => i) (fun _ => none)
        (fun _ _ => true)).encodeJpeg ⟨0⟩ = none ∧
    saveThumbnailRun
        (Env.mk (fun _ _ => some ⟨0⟩) (fun i _ => i) (fun _ => none)
          (fun _ _ => true)) ⟨0⟩ "b" "k" =
      (.error .encodeError, [.logEncodeFailed "k"]) ∧
    (⟨"b", "k", [7], "STANDARD", "thumbnail"⟩ : PutCall) ∈
      putEvents (saveThumbnailRun constEnv ⟨0⟩ "b" "k").2 ∧
    (⟨"b", "k", [7], "STANDARD", "thumbnail"⟩ : PutCall).storageCls = "STANDARD" ∧
    (∃ body, constEnv.encodeJpeg ⟨0⟩ = some body) := by
  refine ⟨by decide, ?_, by decide, ?_, ?_⟩
  · exact ((saveThumbnail_encode_gate
      (Env.mk (fun _ _ => some ⟨0⟩) (fun i _ => i) (fun _ => none) (fun _ _ => true))
      ⟨0⟩ "b" "k").1 rfl).1
  · exact ((saveThumbnail_encode_gate constEnv ⟨0⟩ "b" "k").2.1
      ⟨"b", "k", [7], "STANDARD", "thumbnail"⟩ (by decide)).1
  · exact (saveThumbnail_encode_gate constEnv ⟨0⟩ "b" "k").2.2 (by decide)

/-! Configuration loading (`readConfig`, main.go lines 63-111). -/

/-- One scan of `sizePattern.FindAllStringSubmatch(s, -1)`: at each
position, match a maximal digit run, the literal `x`, and a second
maximal digit run; on success record the two capture groups and continue
after the match, otherwise advance one character.  The greedy `\d+`
cannot backtrack here, because shortening a maximal digit run puts a
digit (never `x`) next; and starting inside a digit run fails at the same
character the full run failed at, so position-by-position scanning agrees
with the regexp's leftmost semantics.  The structural fuel only needs to
be at least the input length. -/
def findSizesAux : Nat → List Char → List (List Char × List Char)
  | 0, _ => []
  | _ + 1, [] => []
  | fuel + 1, c :: cs =>
    if c.isDigit then
      match takeDigits (c :: cs) with
      | (d1, 'x' :: r2) =>
        match takeDigits r2 with
        | ([], _) => findSizesAux fuel cs
        | (d2, r3) => (d1, d2) :: findSizesAux fuel r3
      | _ => findSizesAux fuel cs
    else findSizesAux fuel cs

/-- All `(\d+)x(\d+)` capture-group pairs of a string, in match order. -/
def findSizes (l : List Char) : List (List Char × List Char) :=
  findSizesAux l.length l

/-- Model of Go `strconv.Atoi`: an optional sign followed by a non-empty
run of decimal digits, rejecting values outside the signed 64-bit
range. -/
def goAtoi (s : String) : Option Int :=
  match s.data with
  | '-' :: ds =>
    if ds ≠ [] ∧ ds.all Char.isDigit then
      if digitsToNat ds ≤ 2 ^ 63 then some (-(digitsToNat ds : Int)) else none
    else none
  | '+' :: ds =>
    if ds ≠ [] ∧ ds.all Char.isDigit then
      if digitsToNat ds ≤ 2 ^ 63 - 1 then some (digitsToNat ds : Int) else none
    else none
  | ds =>
    if ds ≠ [] ∧ ds.all Char.isDigit then
      if digitsToNat ds ≤ 2 ^ 63 - 1 then some (digitsToNat ds : Int) else none
    else none

/-- The configuration struct loaded by `readConfig` (main.go lines 54-60).
The sizes come from `(\d+)x(\d+)` capture groups, hence `Nat`
coordinates; `MaxRetry` is a Go `int` and can be negative. -/
structure Config where
  accessKeyID : String
  secretAccessKey : String
  region : String
  maxRetry : Int
  sizes : List SizeTarget
deriving DecidableEq, Repr

/-- The failure families of `readConfig`: the combined empty-variable
check, and a `strconv.Atoi` failure on a captured size number.  The
`len(group) != 3` branch of the source is unreachable — a match of a
two-group regexp always yields a submatch slice of length 3 — and has no
constructor here. -/
inductive ConfigError where
  | emptyEnv
  | invalidSize (group : List Char × List Char)
deriving DecidableEq, Repr

/-- The size-parsing loop of `readConfig`: `strconv.Atoi` on both capture
groups of each match, stopping at the first group that fails to parse,
appending `image.Pt(width, height)` otherwise.  The parsed values are
non-negative (digit-only strings), so storing them as `Nat` via `toNat`
is faithful. -/
def parseSizes : List (List Char × List Char) → Except ConfigError (List SizeTarget)
  | [] => .ok []
  | g :: rest =>
    match goAtoi ⟨g.1⟩ with
    | none => .error (.invalidSize g)
    | some w =>
      match goAtoi ⟨g.2⟩ with
      | none => .error (.invalidSize g)
      | some h =>
        match parseSizes rest with
        | .error e => .error e
        | .ok l => .ok (⟨w.toNat, h.toNat⟩ :: l)

/-- Model of `readConfig` (main.go lines 63-111).  The five environment
variables arrive as explicit strings; a missing variable is the empty
string (`os.Getenv`'s behaviour).  `MaxRetries` is optional: when
`strconv.Atoi` fails on it, the retry count defaults to 3.  The `debug`
printing branch has no effect on the result and is not modelled. -/
def readConfig (accessKeyID secretAccessKey region sizeString maxRetries : String) :
    Except ConfigError Config :=
  if accessKeyID = "" ∨ secretAccessKey = "" ∨ region = "" ∨ sizeString = "" then
    .error .emptyEnv
  else
    match parseSizes (findSizes sizeString.data) with
    | .error e => .error e
    | .ok sizes =>
      .ok ⟨accessKeyID, secretAccessKey, region,
        (match goAtoi maxRetries with
         | some v => v
         | none => 3), sizes⟩

/-- The size-parsing loop fails exactly when some captured group fails to
parse. -/
theorem parseSizes_error_iff :
    ∀ gs : List (List Char × List Char),
      (∀ l, parseSizes gs ≠ .ok l) ↔
        ∃ g ∈ gs, goAtoi ⟨g.1⟩ = none ∨ goAtoi ⟨g.2⟩ = none := by
  intro gs
  induction gs with
  | nil => simp [parseSizes]
  | cons g rest ih =>
    rcases h1 : goAtoi ⟨g.1⟩ with _ | w
    · simp only [parseSizes, h1]
      constructor
      · intro _
        exact ⟨g, by simp, Or.inl h1⟩
      · intro _ l h
        cases h
    · rcases h2 : goAtoi ⟨g.2⟩ with _ | h
      · simp only [parseSizes, h1, h2]
        constructor
        · intro _
          exact ⟨g, by simp, Or.inr h2⟩
        · intro _ l hl
          cases hl
      · rcases h3 : parseSizes rest with e | l
        · simp only [parseSizes, h1, h2, h3]
          constructor
          · intro _
            obtain ⟨g2, hg2, hfail⟩ := ih.mp (by intro l hl; rw [h3] at hl; cases hl)
            exact ⟨g2, by simp [hg2], hfail⟩
          · intro _ l hl
            cases hl
        · simp only [parseSizes, h1, h2, h3]
          constructor
          · intro hno
            exact absurd rfl (hno _)
          · rintro ⟨g2, hg2, hfail⟩ l hl
            rcases List.mem_cons.mp hg2 with hg2 | hg2
            · subst hg2
              rcases hfail with hf | hf
              · rw [h1] at hf
                cases hf
              · rw [h2] at hf
                cases hf
            · have := ih.mpr ⟨g2, hg2, hfail⟩ _ h3
              exact this

/-- C8 (amended): `readConfig` fails iff a required environment variable
(AccessKeyID, SecretAccessKey, Region, Sizes) is empty/missing or one of
the numbers captured from `Sizes` fails `strconv.Atoi` (64-bit overflow);
on success the configuration is fully loaded at startup from the
environment, with `MaxRetry` taken from `MaxRetries` when it parses and
defaulting to 3 otherwise (its sign is not checked). -/
theorem readConfig_fails_iff (a s r z m : String) :
    ((∀ cfg, readConfig a s r z m ≠ .ok cfg) ↔
      a = "" ∨ s = "" ∨ r = "" ∨ z = "" ∨
        ∃ g ∈ findSizes z.data, goAtoi ⟨g.1⟩ = none ∨ goAtoi ⟨g.2⟩ = none) ∧
    (∀ cfg, readConfig a s r z m = .ok cfg →
      cfg.accessKeyID = a ∧ cfg.secretAccessKey = s ∧ cfg.region = r ∧
        cfg.maxRetry = (match goAtoi m with | some v => v | none => 3) ∧
        parseSizes (findSizes z.data) = .ok cfg.sizes) := by
  by_cases hempty : a = "" ∨ s = "" ∨ r = "" ∨ z = ""
  · constructor
    · constructor
      · intro _
        tauto
      · intro _ cfg h
        unfold readConfig at h
        rw [if_pos hempty] at h
        cases h
    · intro cfg h
      unfold readConfig at h
      rw [if_pos hempty] at h
      cases h
  · rcases h3 : parseSizes (findSizes z.data) with e | l
    · constructor
      · constructor
        · intro _
          refine Or.inr (Or.inr (Or.inr (Or.inr ?_)))
          exact (parseSizes_error_iff _).mp (by intro l hl; rw [h3] at hl; cases hl)
        · intro _ cfg h
          unfold readConfig at h
          rw [if_neg hempty, h3] at h
          cases h
      · intro cfg h
        unfold readConfig at h
        rw [if_neg hempty, h3] at h
        cases h
    · constructor
      · constructor
        · intro hno
          exfalso
          apply hno ⟨a, s, r,
            (match goAtoi m with | some v => v | none => 3), l⟩
          unfold readConfig
          rw [if_neg hempty, h3]
        · intro hcases cfg h
          rcases hcases with hc | hc | hc | hc | hc
          · exact absurd (Or.inl hc) hempty
          · exact absurd (Or.inr (Or.inl hc)) hempty
          · exact absurd (Or.inr (Or.inr (Or.inl hc))) hempty
          · exact absurd (Or.inr (Or.inr (Or.inr hc))) hempty
          · exact (parseSizes_error_iff _).mpr hc _ h3
      · intro cfg h
        unfold readConfig at h
        rw [if_neg hempty, h3] at h
        cases h
        exact ⟨rfl, rfl, rfl, rfl, rfl⟩

/-- C8 counterexample: with `MaxRetries = "-1"` and all required
variables present, `readConfig` succeeds and loads `MaxRetry = -1`: the
source accepts any `strconv.Atoi` result without checking its sign, so
the loaded configuration can violate the claimed shape
`maxRetry: int ≥ 0`. -/
theorem readConfig_negative_maxRetry_cex :
    readConfig "a" "b" "c" "1x1" "-1" = .ok ⟨"a", "b", "c", -1, [⟨1, 1⟩]⟩ ∧
      (⟨"a", "b", "c", -1, [⟨1, 1⟩]⟩ : Config).maxRetry < 0 := by
  constructor
  · rfl
  · decide

/-- Witness for C8 (amended): a failing call with a missing variable, and
a successful fully-loaded call. -/
theorem readConfig_fails_iff_witness :
    (∀ cfg, readConfig "" "b" "c" "1x1" "7" ≠ .ok cfg) ∧
    readConfig "a" "b" "c" "10x20" "7" = .ok ⟨"a", "b", "c", 7, [⟨10, 20⟩]⟩ ∧
    (⟨"a", "b", "c", 7, [⟨10, 20⟩]⟩ : Config).maxRetry = 7 := by
  refine ⟨(readConfig_fails_iff "" "b" "c" "1x1" "7").1.mpr (Or.inl rfl), by rfl, ?_⟩
  have h := (readConfig_fails_iff "a" "b" "c" "10x20" "7").2
    ⟨"a", "b", "c", 7, [⟨10, 20⟩]⟩ (by rfl)
  exact h.2.2.2.1.trans (by decide)

/-! The resize engine. -/

/-- Modelled from the spec: the Resize Engine (`resize.Thumbnail`, invoked
at main.go line 216) lives in the external `github.com/nfnt/resize`
dependency, whose source is not part of this repository.  Following §4.3,
the thumbnail dimensions apply the scale factor
`min(maxWidth/srcWidth, maxHeight/srcHeight)` to the source dimensions
`(srcW, srcH)`, with integer (floor) rounding on the non-binding
dimension: when `maxW/srcW` is the smaller ratio (`maxW * srcH ≤
maxH * srcW`) the width is pinned to `maxW` and the height scales along,
and symmetrically otherwise. -/
def thumbDims (srcW srcH maxW maxH : Nat) : Nat × Nat :=
  if maxW * srcH ≤ maxH * srcW then (maxW, srcH * maxW / srcW)
  else (srcW * maxH / srcH, maxH)

/-- C9: the thumbnail fits the bounding box — never wider than `W`, never
taller than `H` — its aspect ratio equals the source's within one unit of
rounding in cross-ratio form, and the binding dimension is met exactly
(the scale factor is `min(W/w, H/h)`, so the output is never scaled past
the bound). -/
theorem thumbDims_bounded_aspect (w h W H : Nat) (hw : 0 < w) (hh : 0 < h) :
    (thumbDims w h W H).1 ≤ W ∧ (thumbDims w h W H).2 ≤ H ∧
    (thumbDims w h W H).1 * h ≤ (thumbDims w h W H).2 * w + w ∧
    (thumbDims w h W H).2 * w ≤ (thumbDims w h W H).1 * h + h ∧
    (W * h ≤ H * w → (thumbDims w h W H).1 = W) ∧
    (H * w ≤ W * h → (thumbDims w h W H).2 = H) := by
  unfold thumbDims
  by_cases hc : W * h ≤ H * w
  · rw [if_pos hc]
    have hdm := Nat.div_add_mod (h * W) w
    have hmlt : h * W % w < w := Nat.mod_lt _ hw
    have hcomm : W * h = h * W := Nat.mul_comm W h
    have hcomm2 : (h * W / w) * w = w * (h * W / w) := Nat.mul_comm _ _
    have hev : h * W / w ≤ H := by
      have h1 : h * W ≤ H * w := by omega
      have h2 : h * W / w ≤ H * w / w := Nat.div_le_div_right h1
      rwa [Nat.mul_div_cancel H hw] at h2
    refine ⟨Nat.le_refl W, hev, ?_, ?_, fun _ => rfl, ?_⟩
    · show W * h ≤ (h * W / w) * w + w
      omega
    · show (h * W / w) * w ≤ W * h + h
      omega
    · intro hrev
      show h * W / w = H
      have heq : h * W = H * w := by omega
      rw [heq, Nat.mul_div_cancel H hw]
  · rw [if_neg hc]
    have hdm := Nat.div_add_mod (w * H) h
    have hmlt : w * H % h < h := Nat.mod_lt _ hh
    have hcomm : H * w = w * H := Nat.mul_comm H w
    have hcomm2 : (w * H / h) * h = h * (w * H / h) := Nat.mul_comm _ _
    have hlt : H * w < W * h := by omega
    have hev : w * H / h ≤ W := by
      have h1 : w * H ≤ W * h := by omega
      have h2 : w * H / h ≤ W * h / h := Nat.div_le_div_right h1
      rwa [Nat.mul_div_cancel W hh] at h2
    refine ⟨hev, Nat.le_refl H, ?_, ?_, ?_, fun _ => rfl⟩
    · show (w * H / h) * h ≤ H * w + w
      omega
    · show H * w ≤ (w * H / h) * h + h
      omega
    · intro hx
      exact absurd hx hc

/-- Witness for C9 at a 4x3 source resized into a 2x2 box, giving a 2x1
thumbnail. -/
theorem thumbDims_bounded_aspect_witness :
    0 < 4 ∧ 0 < 3 ∧
      ((thumbDims 4 3 2 2).1 ≤ 2 ∧ (thumbDims 4 3 2 2).2 ≤ 2 ∧
        (thumbDims 4 3 2 2).1 * 3 ≤ (thumbDims 4 3 2 2).2 * 4 + 4 ∧
        (thumbDims 4 3 2 2).2 * 4 ≤ (thumbDims 4 3 2 2).1 * 3 + 3 ∧
        (2 * 3 ≤ 2 * 4 → (thumbDims 4 3 2 2).1 = 2) ∧
        (2 * 4 ≤ 2 * 3 → (thumbDims 4 3 2 2).2 = 2)) :=
  ⟨by decide, by decide, thumbDims_bounded_aspect 4 3 2 2 (by decide) (by decide)⟩

end Resize
